import Mathlib

/-!
# Verification of the `lexer_no_ai.py` scanning engine

Shallow embedding of the lexer in `src/lexer_no_ai.py`.  Python strings are
modelled as `List Char`; the cursor's `(pos, line, column)` state is modelled
by passing the remaining input list together with a `LinePos` (the `pos` field
is recoverable as original length minus remaining length).  Python's
`str.isdigit` / `str.isalpha` / `str.isalnum` are modelled by the ASCII
predicates `Char.isDigit` / `Char.isAlpha` / `Char.isAlphanum`; the claims
under verification do not depend on the Unicode extension of these classes.
The `tokenize` loop is written with explicit fuel (set to the input length,
which suffices because every iteration consumes at least one character); fuel
independence is proved below, which is the termination content of the loop.
-/

namespace LexerNoAI

/-- The fixed, closed set of token categories of the lexer. -/
inductive TokenType where
  | KEYWORD
  | IDENTIFIER
  | INTEGER
  | FLOAT
  | STRING
  | COMMENT
  | PREPROCESSOR
  | NEWLINE
  | OPERATOR
  | DELIMITER
  | UNKNOWN
deriving DecidableEq

/-- `Token` from the source: type, exact lexeme text, 1-based line/column of
the token's first character. -/
structure Token where
  type : TokenType
  value : List Char
  line : Nat
  column : Nat
deriving DecidableEq

/-- The `(line, column)` part of the cursor state. -/
structure LinePos where
  line : Nat
  column : Nat
deriving DecidableEq

/-- `Lexer.advance`: consuming a newline increments the line and resets the
column to 1; any other character increments the column. -/
def advance (p : LinePos) (c : Char) : LinePos :=
  if c = '\n' then ⟨p.line + 1, 1⟩ else ⟨p.line, p.column + 1⟩

/-- Advancing over a whole run of consumed characters, in order. -/
def advanceMany (p : LinePos) (l : List Char) : LinePos :=
  l.foldl advance p

/-- The characters skipped by `Lexer.skip_whitespace` (space, tab, carriage
return; never a newline). -/
def is_ws (c : Char) : Bool :=
  c == ' ' || c == '\t' || c == '\r'

/-- `TOKEN_TYPES["KEYWORD"]`: the fixed, case-sensitive keyword list. -/
def KEYWORD_SET : List (List Char) :=
  (["auto", "break", "case", "char", "const", "continue", "default", "do",
    "double", "else", "enum", "extern", "float", "for", "goto", "if",
    "int", "long", "register", "return", "short", "signed", "sizeof", "static",
    "struct", "switch", "typedef", "union", "unsigned", "void", "volatile", "while",
    "print", "input", "def", "class", "import", "from", "as", "try", "except",
    "finally", "raise", "with", "yield", "lambda", "pass", "True", "False", "None",
    "and", "or", "not", "in", "is", "elif"]).map String.toList

/-- The fixed two-character operator table `multi_char_ops`. -/
def multi_char_ops : List (List Char) :=
  [['=', '='], ['!', '='], ['<', '='], ['>', '='], ['&', '&'], ['|', '|'],
   ['+', '+'], ['-', '-'], ['+', '='], ['-', '='], ['*', '='], ['/', '='],
   ['<', '<'], ['>', '>'], ['-', '>'], ['*', '*'], ['/', '/']]

/-- The single-character operator set `single_ops`. -/
def single_ops : List Char :=
  ['+', '-', '*', '/', '%', '=', '<', '>', '!', '&', '|', '^', '~', '?', ':', '@']

/-- The delimiter set `delimiters`. -/
def delimiters : List Char :=
  ['(', ')', '{', '}', '[', ']', ';', ',', '.']

/-- The character class scanned by `lex_identifier`'s loop
(`isalnum() or '_'`). -/
def is_ident_char (c : Char) : Bool :=
  c.isAlphanum || c == '_'

/-- The loop of `lex_number`: consume digits and at most one dot; a second
dot breaks the loop without being consumed.  Returns
(consumed run, final is_float flag, remaining input). -/
def lex_number_loop : Bool → List Char → List Char × Bool × List Char
  | is_float, [] => ([], is_float, [])
  | is_float, c :: cs =>
    if c.isDigit then
      let r := lex_number_loop is_float cs
      (c :: r.1, r.2)
    else if c = '.' then
      if is_float then ([], is_float, c :: cs)
      else
        let r := lex_number_loop true cs
        (c :: r.1, r.2)
    else ([], is_float, c :: cs)

/-- `Lexer.lex_number`, on the remaining input (whose head is the digit that
triggered it).  Returns (token, consumed characters, remaining input). -/
def lex_number (rest : List Char) (p : LinePos) : Token × List Char × List Char :=
  let r := lex_number_loop false rest
  (⟨if r.2.1 then .FLOAT else .INTEGER, r.1, p.line, p.column⟩, r.1, r.2.2)

/-- `Lexer.lex_identifier`: consume the maximal `is_ident_char` run, then an
exact membership test against the keyword list. -/
def lex_identifier (rest : List Char) (p : LinePos) : Token × List Char × List Char :=
  let word := rest.takeWhile is_ident_char
  (⟨if word ∈ KEYWORD_SET then .KEYWORD else .IDENTIFIER, word, p.line, p.column⟩,
   word, rest.dropWhile is_ident_char)

/-- The loop of `lex_string`, run on the input after the opening quote: copy
characters until end of input or the exact quote character; on a backslash the
backslash and the character after it (if any) are both copied verbatim.
Returns (copied body, remaining input, which starts with the quote if the loop
stopped on one). -/
def lex_string_loop (q : Char) : List Char → List Char × List Char
  | [] => ([], [])
  | c :: cs =>
    if c = q then ([], c :: cs)
    else if c = '\\' then
      match cs with
      | [] => ([c], [])
      | d :: ds =>
        let r := lex_string_loop q ds
        (c :: d :: r.1, r.2)
    else
      let r := lex_string_loop q cs
      (c :: r.1, r.2)

/-- `Lexer.lex_string`: `rest` is the input after the opening quote `q`.
The value starts with the opening quote; if the loop stopped on the matching
quote it is consumed and appended, otherwise the partial value is kept. -/
def lex_string (q : Char) (rest : List Char) (p : LinePos) :
    Token × List Char × List Char :=
  let r := lex_string_loop q rest
  match r.2 with
  | c :: cs =>
    if c = q then
      (⟨.STRING, q :: r.1 ++ [c], p.line, p.column⟩, q :: r.1 ++ [c], cs)
    else
      (⟨.STRING, q :: r.1, p.line, p.column⟩, q :: r.1, c :: cs)
  | [] => (⟨.STRING, q :: r.1, p.line, p.column⟩, q :: r.1, [])

/-- `Lexer.lex_single_comment`: capture up to (not including) the next
newline or end of input. -/
def lex_single_comment (rest : List Char) (p : LinePos) :
    Token × List Char × List Char :=
  let v := rest.takeWhile (fun c => c != '\n')
  (⟨.COMMENT, v, p.line, p.column⟩, v, rest.dropWhile (fun c => c != '\n'))

/-- The loop of `lex_multi_comment`, run on the input after the opening
`/*`: copy characters until `*/` (consumed and appended) or end of input. -/
def lex_multi_comment_loop : List Char → List Char × List Char
  | [] => ([], [])
  | c :: cs =>
    if c = '*' ∧ cs.head? = some '/' then (['*', '/'], cs.tail)
    else
      let r := lex_multi_comment_loop cs
      (c :: r.1, r.2)

/-- `Lexer.lex_multi_comment`: `rest` is the input after the opening `/*`. -/
def lex_multi_comment (rest : List Char) (p : LinePos) :
    Token × List Char × List Char :=
  let r := lex_multi_comment_loop rest
  (⟨.COMMENT, '/' :: '*' :: r.1, p.line, p.column⟩, '/' :: '*' :: r.1, r.2)

/-- `Lexer.lex_preprocessor`: capture up to (not including) the next newline
or end of input. -/
def lex_preprocessor (rest : List Char) (p : LinePos) :
    Token × List Char × List Char :=
  let v := rest.takeWhile (fun c => c != '\n')
  (⟨.PREPROCESSOR, v, p.line, p.column⟩, v, rest.dropWhile (fun c => c != '\n'))

/-- `Lexer.lex_newline`: emit a `NEWLINE` token whose value is the Python
string literal `"\\n"` — the TWO characters backslash and `n`, not the
newline character — then advance past the single newline character.
`rest` is the input after the newline. -/
def lex_newline (rest : List Char) (p : LinePos) : Token × List Char × List Char :=
  (⟨.NEWLINE, ['\\', 'n'], p.line, p.column⟩, ['\n'], rest)

/-- The tail of the dispatcher (single-character operators, delimiters,
unknown), reached when every earlier branch failed. -/
def dispatch_tail (c : Char) (cs : List Char) (p : LinePos) :
    Token × List Char × List Char :=
  if c ∈ single_ops then (⟨.OPERATOR, [c], p.line, p.column⟩, [c], cs)
  else if c ∈ delimiters then (⟨.DELIMITER, [c], p.line, p.column⟩, [c], cs)
  else (⟨.UNKNOWN, [c], p.line, p.column⟩, [c], cs)

/-- One dispatch of `Lexer.tokenize`'s loop body on a non-empty remaining
input `c :: cs`, translated branch for branch in the source's order,
including the later (dead) Python-comment check on `#`.  Returns
(emitted token, consumed characters, remaining input). -/
def dispatch (c : Char) (cs : List Char) (p : LinePos) :
    Token × List Char × List Char :=
  if c = '\n' then lex_newline cs p
  else if c = '#' then lex_preprocessor (c :: cs) p
  else if c = '/' ∧ cs.head? = some '/' then lex_single_comment (c :: cs) p
  else if c = '/' ∧ cs.head? = some '*' then lex_multi_comment cs.tail p
  else if c = '#' then lex_single_comment (c :: cs) p
  else if c.isDigit then lex_number (c :: cs) p
  else if c.isAlpha ∨ c = '_' then lex_identifier (c :: cs) p
  else if c = '"' ∨ c = '\'' then lex_string c cs p
  else
    match cs with
    | d :: t =>
      if [c, d] ∈ multi_char_ops then
        (⟨.OPERATOR, [c, d], p.line, p.column⟩, [c, d], t)
      else dispatch_tail c cs p
    | [] => dispatch_tail c cs p

/-- The `tokenize` loop, instrumented with the consumed character spans and
written with explicit fuel.  Each iteration skips horizontal whitespace, stops
if the input is exhausted, and otherwise dispatches one sub-scanner.  Returns
the per-iteration list of (skipped whitespace, consumed span, emitted token)
and the trailing skipped whitespace of the final iteration. -/
def lexRun : Nat → List Char → LinePos →
    List (List Char × List Char × Token) × List Char
  | _, [], _ => ([], [])
  | 0, _ :: _, _ => ([], [])
  | fuel + 1, c0 :: cs0, p =>
    match (c0 :: cs0).dropWhile is_ws with
    | [] => ([], (c0 :: cs0).takeWhile is_ws)
    | c :: cs =>
      let ws := (c0 :: cs0).takeWhile is_ws
      let r := dispatch c cs (advanceMany p ws)
      let rest := lexRun fuel r.2.2 (advanceMany (advanceMany p ws) r.2.1)
      ((ws, r.2.1, r.1) :: rest.1, rest.2)

/-- The instrumented run of `Lexer.tokenize` on a character list, with fuel
set to the input length (proved sufficient below). -/
def lexFull (l : List Char) : List (List Char × List Char × Token) × List Char :=
  lexRun l.length l ⟨1, 1⟩

/-- `Lexer.tokenize` on a character list: the emitted tokens of the
instrumented run, in order. -/
def tokenizeChars (l : List Char) : List Token :=
  (lexFull l).1.map (fun x => x.2.2)

/-- `Lexer(source).tokenize()`. -/
def tokenize (s : String) : List Token :=
  tokenizeChars s.toList

/-- Refinement reference for the dead dispatch branch.  Modelled from the
spec: the dispatcher of `tokenize` with the later, duplicate Python-comment
check on `#` removed; every other branch is verbatim `dispatch`.  The spec
says the duplicate check is unreachable, so this must agree with `dispatch`
everywhere. -/
def dispatch_nodead (c : Char) (cs : List Char) (p : LinePos) :
    Token × List Char × List Char :=
  if c = '\n' then lex_newline cs p
  else if c = '#' then lex_preprocessor (c :: cs) p
  else if c = '/' ∧ cs.head? = some '/' then lex_single_comment (c :: cs) p
  else if c = '/' ∧ cs.head? = some '*' then lex_multi_comment cs.tail p
  else if c.isDigit then lex_number (c :: cs) p
  else if c.isAlpha ∨ c = '_' then lex_identifier (c :: cs) p
  else if c = '"' ∨ c = '\'' then lex_string c cs p
  else
    match cs with
    | d :: t =>
      if [c, d] ∈ multi_char_ops then
        (⟨.OPERATOR, [c, d], p.line, p.column⟩, [c, d], t)
      else dispatch_tail c cs p
    | [] => dispatch_tail c cs p

/-- Strict lexicographic order on (line, column). -/
def posLt (a b : LinePos) : Prop :=
  a.line < b.line ∨ (a.line = b.line ∧ a.column < b.column)

/-- Reflexive closure of `posLt`. -/
def posLe (a b : LinePos) : Prop :=
  posLt a b ∨ a = b

/-- Absolute start offset of each token of an instrumented run, accumulated
from the lengths of the whitespace and token spans before it. -/
def spanOffsets : Nat → List (List Char × List Char × Token) → List (Nat × Token)
  | _, [] => []
  | n, x :: rest => (n + x.1.length, x.2.2) :: spanOffsets (n + x.1.length + x.2.1.length) rest


/-! ## Basic span lemmas: each sub-scanner splits its input into the
consumed characters followed by the remaining input. -/

theorem lex_number_loop_split (f : Bool) (l : List Char) :
    (lex_number_loop f l).1 ++ (lex_number_loop f l).2.2 = l := by
  induction l generalizing f with
  | nil => simp [lex_number_loop]
  | cons c cs ih =>
    simp only [lex_number_loop]
    split_ifs with h1 h2 h3
    · simpa using ih f
    · simp
    · simpa using ih true
    · simp

theorem lex_string_loop_split (q : Char) (l : List Char) :
    (lex_string_loop q l).1 ++ (lex_string_loop q l).2 = l := by
  suffices H : ∀ (n : Nat) (l : List Char), l.length ≤ n →
      (lex_string_loop q l).1 ++ (lex_string_loop q l).2 = l from
    H l.length l le_rfl
  intro n
  induction n with
  | zero =>
    intro l hl
    cases l with
    | nil => simp [lex_string_loop]
    | cons c cs => simp at hl
  | succ n ih =>
    intro l hl
    cases l with
    | nil => simp [lex_string_loop]
    | cons c cs =>
      rw [lex_string_loop.eq_def]
      dsimp only
      split_ifs with h1 h2
      · simp
      · cases cs with
        | nil => simp
        | cons d ds => simpa using ih ds (by simp at hl; omega)
      · simpa using ih cs (by simp at hl; omega)

theorem lex_multi_comment_loop_split (l : List Char) :
    (lex_multi_comment_loop l).1 ++ (lex_multi_comment_loop l).2 = l := by
  induction l with
  | nil => simp [lex_multi_comment_loop]
  | cons c cs ih =>
    simp only [lex_multi_comment_loop]
    split_ifs with h1
    · obtain ⟨rfl, hh⟩ := h1
      match cs with
      | [] => simp at hh
      | d :: ds =>
        simp only [List.head?_cons, Option.some.injEq] at hh
        subst hh
        simp
    · simpa using ih

theorem lex_string_split (q : Char) (rest : List Char) (p : LinePos) :
    (lex_string q rest p).2.1 ++ (lex_string q rest p).2.2 = q :: rest := by
  have hs := lex_string_loop_split q rest
  simp only [lex_string]
  split
  next c cs heq =>
    rw [heq] at hs
    split_ifs with hc
    · simpa using hs
    · simpa using hs
  next heq =>
    rw [heq] at hs
    simpa using hs

theorem dispatch_split (c : Char) (cs : List Char) (p : LinePos) :
    (dispatch c cs p).2.1 ++ (dispatch c cs p).2.2 = c :: cs := by
  simp only [dispatch]
  split_ifs with h1 h2 h3 h4 h5 h6 h7
  · subst h1; simp [lex_newline]
  · simp [lex_preprocessor, List.takeWhile_append_dropWhile]
  · simp [lex_single_comment, List.takeWhile_append_dropWhile]
  · obtain ⟨rfl, hh⟩ := h4
    match cs with
    | [] => simp at hh
    | d :: ds =>
      simp only [List.head?_cons, Option.some.injEq] at hh
      subst hh
      simpa [lex_multi_comment] using lex_multi_comment_loop_split ds
  · simpa [lex_number] using lex_number_loop_split false (c :: cs)
  · simp [lex_identifier, List.takeWhile_append_dropWhile]
  · exact lex_string_split c cs p
  · split
    next d t =>
      split_ifs with hop
      · simp
      · simp only [dispatch_tail]; split_ifs <;> simp
    next =>
      simp only [dispatch_tail]; split_ifs <;> simp

theorem dispatch_consumed_ne (c : Char) (cs : List Char) (p : LinePos) :
    (dispatch c cs p).2.1 ≠ [] := by
  simp only [dispatch]
  split_ifs with h1 h2 h3 h4 h5 h6 h7
  · simp [lex_newline]
  · subst h2
    simp [lex_preprocessor, List.takeWhile_cons]
  · obtain ⟨rfl, -⟩ := h3
    simp [lex_single_comment, List.takeWhile_cons]
  · simp [lex_multi_comment]
  · simp only [lex_number, lex_number_loop, h5]
    simp
  · have hid : is_ident_char c = true := by
      rcases h6 with h | rfl
      · simp [is_ident_char, Char.isAlphanum, h]
      · simp [is_ident_char]
    simp [lex_identifier, List.takeWhile_cons, hid]
  · simp only [lex_string]
    split
    next c' cs' heq => split_ifs <;> simp
    next heq => simp
  · split
    next d t =>
      split_ifs with hop
      · simp
      · simp only [dispatch_tail]; split_ifs <;> simp
    next =>
      simp only [dispatch_tail]; split_ifs <;> simp

/-! ## Loop lemmas: progress, accounting, fuel independence. -/

theorem dispatch_remaining_lt (c : Char) (cs : List Char) (p : LinePos) :
    (dispatch c cs p).2.2.length < (c :: cs).length := by
  have h := dispatch_split c cs p
  have hne := dispatch_consumed_ne c cs p
  have hlen := congrArg List.length h
  rw [List.length_append] at hlen
  have hpos : 0 < (dispatch c cs p).2.1.length := List.length_pos.mpr hne
  simp only [List.length_cons] at hlen ⊢
  omega

theorem lexRun_nil (fuel : Nat) (p : LinePos) : lexRun fuel [] p = ([], []) := by
  cases fuel <;> rfl

theorem lexRun_succ (fuel : Nat) (c0 : Char) (cs0 : List Char) (p : LinePos) :
    lexRun (fuel + 1) (c0 :: cs0) p =
      match (c0 :: cs0).dropWhile is_ws with
      | [] => ([], (c0 :: cs0).takeWhile is_ws)
      | c :: cs =>
        let ws := (c0 :: cs0).takeWhile is_ws
        let r := dispatch c cs (advanceMany p ws)
        let rest := lexRun fuel r.2.2 (advanceMany (advanceMany p ws) r.2.1)
        ((ws, r.2.1, r.1) :: rest.1, rest.2) := rfl

theorem dropWhile_le_fuel {c0 : Char} {cs0 : List Char} {fuel : Nat} {c : Char}
    {cs : List Char} (hl : (c0 :: cs0).length ≤ fuel + 1)
    (heq : (c0 :: cs0).dropWhile is_ws = c :: cs) (p : LinePos) :
    (dispatch c cs p).2.2.length ≤ fuel := by
  have h1 : (dispatch c cs p).2.2.length < (c :: cs).length :=
    dispatch_remaining_lt c cs p
  have h2 : ((c0 :: cs0).dropWhile is_ws).length ≤ (c0 :: cs0).length :=
    (List.dropWhile_sublist is_ws).length_le
  rw [heq] at h2
  omega

theorem lexRun_succ_ws (fuel : Nat) (c0 : Char) (cs0 : List Char) (p : LinePos)
    (heq : (c0 :: cs0).dropWhile is_ws = []) :
    lexRun (fuel + 1) (c0 :: cs0) p = ([], (c0 :: cs0).takeWhile is_ws) := by
  rw [lexRun_succ, heq]

theorem lexRun_succ_cons (fuel : Nat) (c0 : Char) (cs0 : List Char) (p : LinePos)
    {c : Char} {cs : List Char} (heq : (c0 :: cs0).dropWhile is_ws = c :: cs) :
    lexRun (fuel + 1) (c0 :: cs0) p =
      (((c0 :: cs0).takeWhile is_ws,
        (dispatch c cs (advanceMany p ((c0 :: cs0).takeWhile is_ws))).2.1,
        (dispatch c cs (advanceMany p ((c0 :: cs0).takeWhile is_ws))).1) ::
          (lexRun fuel (dispatch c cs (advanceMany p ((c0 :: cs0).takeWhile is_ws))).2.2
            (advanceMany (advanceMany p ((c0 :: cs0).takeWhile is_ws))
              (dispatch c cs (advanceMany p ((c0 :: cs0).takeWhile is_ws))).2.1)).1,
       (lexRun fuel (dispatch c cs (advanceMany p ((c0 :: cs0).takeWhile is_ws))).2.2
         (advanceMany (advanceMany p ((c0 :: cs0).takeWhile is_ws))
           (dispatch c cs (advanceMany p ((c0 :: cs0).takeWhile is_ws))).2.1)).2) := by
  rw [lexRun_succ, heq]

theorem lexRun_join (fuel : Nat) : ∀ (l : List Char) (p : LinePos), l.length ≤ fuel →
    ((lexRun fuel l p).1.map (fun x => x.1 ++ x.2.1)).flatten ++ (lexRun fuel l p).2 = l := by
  induction fuel with
  | zero =>
    intro l p hl
    cases l with
    | nil => simp [lexRun_nil]
    | cons c cs => simp at hl
  | succ fuel ih =>
    intro l p hl
    cases l with
    | nil => simp [lexRun_nil]
    | cons c0 cs0 =>
      have hsplit := List.takeWhile_append_dropWhile is_ws (c0 :: cs0)
      cases hdw : (c0 :: cs0).dropWhile is_ws with
      | nil =>
        rw [lexRun_succ_ws fuel c0 cs0 p hdw]
        rw [hdw, List.append_nil] at hsplit
        simpa using hsplit
      | cons c cs =>
        rw [lexRun_succ_cons fuel c0 cs0 p hdw]
        have hih := ih (dispatch c cs (advanceMany p ((c0 :: cs0).takeWhile is_ws))).2.2
          (advanceMany (advanceMany p ((c0 :: cs0).takeWhile is_ws))
            (dispatch c cs (advanceMany p ((c0 :: cs0).takeWhile is_ws))).2.1)
          (dropWhile_le_fuel hl hdw _)
        have hd := dispatch_split c cs (advanceMany p ((c0 :: cs0).takeWhile is_ws))
        simp only [List.map_cons, List.flatten_cons, List.append_assoc]
        rw [hih, hd, ← hdw]
        exact hsplit

theorem lexRun_consumed_ne (fuel : Nat) : ∀ (l : List Char) (p : LinePos),
    ∀ x ∈ (lexRun fuel l p).1, x.2.1 ≠ [] := by
  induction fuel with
  | zero =>
    intro l p x hx
    cases l with
    | nil => simp [lexRun_nil] at hx
    | cons c cs => simp [lexRun] at hx
  | succ fuel ih =>
    intro l p x hx
    cases l with
    | nil => simp [lexRun_nil] at hx
    | cons c0 cs0 =>
      cases hdw : (c0 :: cs0).dropWhile is_ws with
      | nil =>
        rw [lexRun_succ_ws fuel c0 cs0 p hdw] at hx
        simp at hx
      | cons c cs =>
        rw [lexRun_succ_cons fuel c0 cs0 p hdw] at hx
        simp only [List.mem_cons] at hx
        rcases hx with rfl | hx
        · exact dispatch_consumed_ne c cs _
        · exact ih _ _ x hx

theorem lexRun_fuel (f : Nat) : ∀ (g : Nat) (l : List Char) (p : LinePos),
    l.length ≤ f → l.length ≤ g → lexRun f l p = lexRun g l p := by
  induction f with
  | zero =>
    intro g l p hf hg
    cases l with
    | nil => rw [lexRun_nil, lexRun_nil]
    | cons c cs => simp at hf
  | succ f ih =>
    intro g l p hf hg
    cases l with
    | nil => rw [lexRun_nil, lexRun_nil]
    | cons c0 cs0 =>
      cases g with
      | zero => simp at hg
      | succ g =>
        cases hdw : (c0 :: cs0).dropWhile is_ws with
        | nil =>
          rw [lexRun_succ_ws f c0 cs0 p hdw, lexRun_succ_ws g c0 cs0 p hdw]
        | cons c cs =>
          rw [lexRun_succ_cons f c0 cs0 p hdw, lexRun_succ_cons g c0 cs0 p hdw]
          rw [ih g (dispatch c cs (advanceMany p ((c0 :: cs0).takeWhile is_ws))).2.2
            (advanceMany (advanceMany p ((c0 :: cs0).takeWhile is_ws))
              (dispatch c cs (advanceMany p ((c0 :: cs0).takeWhile is_ws))).2.1)
            (dropWhile_le_fuel hf hdw _) (dropWhile_le_fuel hg hdw _)]

/-! ## Position ordering. -/

theorem posLt_trans {a b c : LinePos} (h1 : posLt a b) (h2 : posLt b c) :
    posLt a c := by
  rcases h1 with h1 | ⟨h1, h1c⟩ <;> rcases h2 with h2 | ⟨h2, h2c⟩ <;>
    simp only [posLt] <;> omega

theorem posLt_of_lt_of_le {a b c : LinePos} (h1 : posLt a b) (h2 : posLe b c) :
    posLt a c := by
  rcases h2 with h2 | rfl
  · exact posLt_trans h1 h2
  · exact h1

theorem posLe_trans {a b c : LinePos} (h1 : posLe a b) (h2 : posLe b c) :
    posLe a c := by
  rcases h1 with h1 | rfl
  · exact Or.inl (posLt_of_lt_of_le h1 h2)
  · exact h2

theorem advance_posLt (p : LinePos) (c : Char) : posLt p (advance p c) := by
  unfold advance
  split_ifs <;> simp [posLt]

theorem advanceMany_posLe (p : LinePos) (l : List Char) :
    posLe p (advanceMany p l) := by
  induction l generalizing p with
  | nil => exact Or.inr rfl
  | cons c cs ih =>
    have h1 : posLt p (advance p c) := advance_posLt p c
    have h2 : posLe (advance p c) (advanceMany (advance p c) cs) := ih (advance p c)
    exact posLe_trans (Or.inl h1) h2

theorem advanceMany_posLt (p : LinePos) {l : List Char} (h : l ≠ []) :
    posLt p (advanceMany p l) := by
  cases l with
  | nil => exact absurd rfl h
  | cons c cs =>
    have h1 : posLt p (advance p c) := advance_posLt p c
    have h2 : posLe (advance p c) (advanceMany (advance p c) cs) :=
      advanceMany_posLe (advance p c) cs
    exact posLt_of_lt_of_le h1 h2

/-- Every sub-scanner records the token position at the cursor position where
the dispatch happened. -/
theorem dispatch_token_pos (c : Char) (cs : List Char) (p : LinePos) :
    (dispatch c cs p).1.line = p.line ∧ (dispatch c cs p).1.column = p.column := by
  simp only [dispatch]
  split_ifs with h1 h2 h3 h4 h5 h6 h7
  · simp [lex_newline]
  · simp [lex_preprocessor]
  · simp [lex_single_comment]
  · simp [lex_multi_comment]
  · simp [lex_number]
  · simp [lex_identifier]
  · simp only [lex_string]
    split
    next c' cs' heq => split_ifs <;> simp
    next heq => simp
  · split
    next d t =>
      split_ifs with hop
      · simp
      · simp only [dispatch_tail]; split_ifs <;> simp
    next =>
      simp only [dispatch_tail]; split_ifs <;> simp

/-- Every token of a run starting at cursor position `p` is recorded at a
position at or after `p`. -/
theorem lexRun_pos_le (fuel : Nat) : ∀ (l : List Char) (p : LinePos),
    ∀ x ∈ (lexRun fuel l p).1, posLe p ⟨x.2.2.line, x.2.2.column⟩ := by
  induction fuel with
  | zero =>
    intro l p x hx
    cases l with
    | nil => simp [lexRun_nil] at hx
    | cons c cs => simp [lexRun] at hx
  | succ fuel ih =>
    intro l p x hx
    cases l with
    | nil => simp [lexRun_nil] at hx
    | cons c0 cs0 =>
      cases hdw : (c0 :: cs0).dropWhile is_ws with
      | nil =>
        rw [lexRun_succ_ws fuel c0 cs0 p hdw] at hx
        simp at hx
      | cons c cs =>
        rw [lexRun_succ_cons fuel c0 cs0 p hdw] at hx
        simp only [List.mem_cons] at hx
        rcases hx with rfl | hx
        · have hp := dispatch_token_pos c cs (advanceMany p ((c0 :: cs0).takeWhile is_ws))
          have hle := advanceMany_posLe p ((c0 :: cs0).takeWhile is_ws)
          dsimp only
          rw [hp.1, hp.2]
          exact hle
        · have h1 := ih _ _ x hx
          have h2 : posLe p (advanceMany (advanceMany p ((c0 :: cs0).takeWhile is_ws))
              (dispatch c cs (advanceMany p ((c0 :: cs0).takeWhile is_ws))).2.1) :=
            posLe_trans (advanceMany_posLe p _) (advanceMany_posLe _ _)
          exact posLe_trans h2 h1

/-- Tokens of a run are pairwise strictly increasing in (line, column). -/
theorem lexRun_pos_pairwise (fuel : Nat) : ∀ (l : List Char) (p : LinePos),
    List.Pairwise (fun a b => posLt ⟨a.2.2.line, a.2.2.column⟩ ⟨b.2.2.line, b.2.2.column⟩)
      (lexRun fuel l p).1 := by
  induction fuel with
  | zero =>
    intro l p
    cases l with
    | nil => simp [lexRun_nil]
    | cons c cs => simp [lexRun]
  | succ fuel ih =>
    intro l p
    cases l with
    | nil => simp [lexRun_nil]
    | cons c0 cs0 =>
      cases hdw : (c0 :: cs0).dropWhile is_ws with
      | nil =>
        rw [lexRun_succ_ws fuel c0 cs0 p hdw]
        simp
      | cons c cs =>
        rw [lexRun_succ_cons fuel c0 cs0 p hdw]
        refine List.Pairwise.cons ?_ (ih _ _)
        intro y hy
        have hp := dispatch_token_pos c cs (advanceMany p ((c0 :: cs0).takeWhile is_ws))
        have hy2 := lexRun_pos_le fuel _ _ y hy
        have hlt : posLt (advanceMany p ((c0 :: cs0).takeWhile is_ws))
            (advanceMany (advanceMany p ((c0 :: cs0).takeWhile is_ws))
              (dispatch c cs (advanceMany p ((c0 :: cs0).takeWhile is_ws))).2.1) :=
          advanceMany_posLt _ (dispatch_consumed_ne c cs _)
        have := posLt_of_lt_of_le hlt hy2
        dsimp only
        rw [hp.1, hp.2]
        exact this

/-! ## Start offsets of the consumed spans. -/

theorem spanOffsets_ge (steps : List (List Char × List Char × Token)) :
    ∀ (n : Nat), ∀ y ∈ spanOffsets n steps, n ≤ y.1 := by
  induction steps with
  | nil => intro n y hy; simp [spanOffsets] at hy
  | cons x rest ih =>
    intro n y hy
    simp only [spanOffsets, List.mem_cons] at hy
    rcases hy with rfl | hy
    · omega
    · have := ih (n + x.1.length + x.2.1.length) y hy
      omega

theorem spanOffsets_pairwise (steps : List (List Char × List Char × Token))
    (hne : ∀ x ∈ steps, x.2.1 ≠ []) :
    ∀ (n : Nat), List.Pairwise (· < ·) ((spanOffsets n steps).map Prod.fst) := by
  induction steps with
  | nil => intro n; simp [spanOffsets]
  | cons x rest ih =>
    intro n
    simp only [spanOffsets, List.map_cons]
    refine List.Pairwise.cons ?_ (ih (fun y hy => hne y (List.mem_cons_of_mem x hy)) _)
    intro m hm
    simp only [List.mem_map] at hm
    obtain ⟨y, hy, rfl⟩ := hm
    have hge := spanOffsets_ge rest (n + x.1.length + x.2.1.length) y hy
    have hx : x.2.1 ≠ [] := hne x (List.mem_cons_self x rest)
    have : 0 < x.2.1.length := List.length_pos.mpr hx
    omega

/-! ## Dispatch branch characterizations. -/

theorem isDigit_false_of_isAlpha {c : Char} (h : c.isAlpha = true) :
    c.isDigit = false := by
  simp only [Char.isAlpha, Char.isLower, Char.isUpper, Char.isDigit, Bool.or_eq_true,
    Bool.and_eq_true, decide_eq_true_eq, ge_iff_le, UInt32.le_def, BitVec.le_def,
    UInt32.toBitVec_ofNat] at h ⊢
  norm_num at h ⊢
  omega

theorem dispatch_newline (cs : List Char) (p : LinePos) :
    dispatch '\n' cs p = (⟨.NEWLINE, ['\\', 'n'], p.line, p.column⟩, ['\n'], cs) := by
  simp [dispatch, lex_newline]

theorem dispatch_hash (cs : List Char) (p : LinePos) :
    dispatch '#' cs p =
      (⟨.PREPROCESSOR, ('#' :: cs).takeWhile (fun c => c != '\n'), p.line, p.column⟩,
       ('#' :: cs).takeWhile (fun c => c != '\n'),
       ('#' :: cs).dropWhile (fun c => c != '\n')) := by
  simp [dispatch, lex_preprocessor]

theorem dispatch_line_comment (cs : List Char) (p : LinePos) (h : cs.head? = some '/') :
    dispatch '/' cs p = lex_single_comment ('/' :: cs) p := by
  simp [dispatch, h]

theorem dispatch_digit {c : Char} (cs : List Char) (p : LinePos) (h : c.isDigit = true) :
    dispatch c cs p = lex_number (c :: cs) p := by
  have h1 : c ≠ '\n' := by rintro rfl; exact absurd h (by decide)
  have h2 : c ≠ '#' := by rintro rfl; exact absurd h (by decide)
  have h3 : c ≠ '/' := by rintro rfl; exact absurd h (by decide)
  simp [dispatch, h, h1, h2, h3]

theorem dispatch_ident {c : Char} (cs : List Char) (p : LinePos)
    (h : c.isAlpha = true ∨ c = '_') :
    dispatch c cs p = lex_identifier (c :: cs) p := by
  rcases h with h | rfl
  · have h1 : c ≠ '\n' := by rintro rfl; exact absurd h (by decide)
    have h2 : c ≠ '#' := by rintro rfl; exact absurd h (by decide)
    have h3 : c ≠ '/' := by rintro rfl; exact absurd h (by decide)
    have h4 : c.isDigit = false := isDigit_false_of_isAlpha h
    simp [dispatch, h, h1, h2, h3, h4]
  · simp [dispatch]

theorem dispatch_quote {c : Char} (cs : List Char) (p : LinePos)
    (h : c = '"' ∨ c = '\'') :
    dispatch c cs p = lex_string c cs p := by
  rcases h with rfl | rfl <;> simp [dispatch]

theorem dispatch_twochar {c d : Char} (t : List Char) (p : LinePos)
    (h1 : c ≠ '\n') (h2 : c ≠ '#')
    (h3 : ¬(c = '/' ∧ d = '/')) (h4 : ¬(c = '/' ∧ d = '*'))
    (h5 : c.isDigit = false) (h6 : c.isAlpha = false) (h7 : c ≠ '_')
    (h8 : c ≠ '"') (h9 : c ≠ '\'') (hop : [c, d] ∈ multi_char_ops) :
    dispatch c (d :: t) p = (⟨.OPERATOR, [c, d], p.line, p.column⟩, [c, d], t) := by
  simp [dispatch, h1, h2, h3, h4, h5, h6, h7, h8, h9, hop]

theorem dispatch_single_op {c : Char} (cs : List Char) (p : LinePos)
    (h1 : c ≠ '\n') (h2 : c ≠ '#')
    (h3 : ¬(c = '/' ∧ cs.head? = some '/')) (h4 : ¬(c = '/' ∧ cs.head? = some '*'))
    (h5 : c.isDigit = false) (h6 : c.isAlpha = false) (h7 : c ≠ '_')
    (h8 : c ≠ '"') (h9 : c ≠ '\'')
    (hop : ∀ d, cs.head? = some d → [c, d] ∉ multi_char_ops)
    (hs : c ∈ single_ops) :
    dispatch c cs p = (⟨.OPERATOR, [c], p.line, p.column⟩, [c], cs) := by
  cases cs with
  | nil => simp [dispatch, dispatch_tail, h1, h2, h3, h4, h5, h6, h7, h8, h9, hs]
  | cons d t =>
    have hd := hop d rfl
    simp only [List.head?_cons, Option.some.injEq] at h3 h4
    simp [dispatch, dispatch_tail, h1, h2, h3, h4, h5, h6, h7, h8, h9, hd, hs]

theorem dispatch_unknown {c : Char} (cs : List Char) (p : LinePos)
    (h1 : c ≠ '\n') (h2 : c ≠ '#')
    (h3 : ¬(c = '/' ∧ cs.head? = some '/')) (h4 : ¬(c = '/' ∧ cs.head? = some '*'))
    (h5 : c.isDigit = false) (h6 : c.isAlpha = false) (h7 : c ≠ '_')
    (h8 : c ≠ '"') (h9 : c ≠ '\'')
    (hop : ∀ d, cs.head? = some d → [c, d] ∉ multi_char_ops)
    (hs : c ∉ single_ops) (hdel : c ∉ delimiters) :
    dispatch c cs p = (⟨.UNKNOWN, [c], p.line, p.column⟩, [c], cs) := by
  cases cs with
  | nil => simp [dispatch, dispatch_tail, h1, h2, h3, h4, h5, h6, h7, h8, h9, hs, hdel]
  | cons d t =>
    have hd := hop d rfl
    simp only [List.head?_cons, Option.some.injEq] at h3 h4
    simp [dispatch, dispatch_tail, h1, h2, h3, h4, h5, h6, h7, h8, h9, hd, hs, hdel]

/-- Every token a dispatch emits satisfies `P` provided `P` holds of the
token of every branch; used to lift per-dispatch facts to whole runs. -/
theorem lexRun_token_prop (P : Token → Prop)
    (hP : ∀ (c : Char) (cs : List Char) (p : LinePos), P (dispatch c cs p).1) :
    ∀ (fuel : Nat) (l : List Char) (p : LinePos),
      ∀ x ∈ (lexRun fuel l p).1, P x.2.2 := by
  intro fuel
  induction fuel with
  | zero =>
    intro l p x hx
    cases l with
    | nil => simp [lexRun_nil] at hx
    | cons c cs => simp [lexRun] at hx
  | succ fuel ih =>
    intro l p x hx
    cases l with
    | nil => simp [lexRun_nil] at hx
    | cons c0 cs0 =>
      cases hdw : (c0 :: cs0).dropWhile is_ws with
      | nil =>
        rw [lexRun_succ_ws fuel c0 cs0 p hdw] at hx
        simp at hx
      | cons c cs =>
        rw [lexRun_succ_cons fuel c0 cs0 p hdw] at hx
        simp only [List.mem_cons] at hx
        rcases hx with rfl | hx
        · exact hP c cs _
        · exact ih _ _ x hx

/-- No dispatch branch can emit an `OPERATOR` token with value `//`: the
two-character operator branch is shielded by the line-comment branch. -/
theorem dispatch_no_slashslash_op (c : Char) (cs : List Char) (p : LinePos) :
    (dispatch c cs p).1.type = .OPERATOR → (dispatch c cs p).1.value ≠ ['/', '/'] := by
  simp only [dispatch]
  split_ifs with h1 h2 h3 h4 h5 h6 h7
  · simp [lex_newline]
  · simp [lex_preprocessor]
  · simp [lex_single_comment]
  · simp [lex_multi_comment]
  · simp only [lex_number]
    split_ifs <;> simp
  · simp only [lex_identifier]
    split_ifs <;> simp
  · simp only [lex_string]
    split
    next c' cs' heq => split_ifs <;> simp
    next heq => simp
  · split
    next d t =>
      split_ifs with hop
      · intro _ hv
        simp only [List.cons.injEq, and_true] at hv
        exact h3 ⟨hv.1, by simp [hv.2]⟩
      · simp only [dispatch_tail]; split_ifs <;> simp
    next =>
      simp only [dispatch_tail]; split_ifs <;> simp

/-! ## Number scanner characterization. -/

theorem lex_number_loop_flag (l : List Char) : ∀ (f : Bool),
    (lex_number_loop f l).2.1 = (f || decide ('.' ∈ (lex_number_loop f l).1)) := by
  induction l with
  | nil => intro f; simp [lex_number_loop]
  | cons a as ih =>
    intro f
    simp only [lex_number_loop]
    split_ifs with h1 h2 h3
    · have ha : a ≠ '.' := by rintro rfl; exact absurd h1 (by decide)
      simp [ih f, Ne.symm ha]
    · simp [h3]
    · subst h2
      simp [ih true]
    · simp

theorem lex_number_loop_chars (l : List Char) : ∀ (f : Bool) (c : Char),
    c ∈ (lex_number_loop f l).1 → c.isDigit = true ∨ c = '.' := by
  induction l with
  | nil => intro f c h; simp [lex_number_loop] at h
  | cons a as ih =>
    intro f c h
    simp only [lex_number_loop] at h
    split_ifs at h with h1 h2 h3
    · rcases List.mem_cons.mp h with rfl | h
      · exact Or.inl h1
      · exact ih f c h
    · simp at h
    · rcases List.mem_cons.mp h with rfl | h
      · exact Or.inr h2
      · exact ih true c h
    · simp at h

theorem lex_number_loop_true_no_dot (l : List Char) :
    (lex_number_loop true l).1.count '.' = 0 := by
  induction l with
  | nil => simp [lex_number_loop]
  | cons a as ih =>
    simp only [lex_number_loop]
    split_ifs with h1 h2
    · have ha : a ≠ '.' := by rintro rfl; exact absurd h1 (by decide)
      simpa [List.count_cons, ha] using ih
    · simp
    · simp

theorem lex_number_loop_dot_count (l : List Char) :
    (lex_number_loop false l).1.count '.' ≤ 1 := by
  induction l with
  | nil => simp [lex_number_loop]
  | cons a as ih =>
    simp only [lex_number_loop]
    split_ifs with h1 h2 h3
    · have ha : a ≠ '.' := by rintro rfl; exact absurd h1 (by decide)
      simpa [List.count_cons, ha] using ih
    · simp at h3
    · subst h2
      have h0 := lex_number_loop_true_no_dot as
      simp [List.count_cons, h0]
    · simp

theorem lex_number_loop_max (l : List Char) : ∀ (f : Bool) (c : Char),
    (lex_number_loop f l).2.2.head? = some c →
      (c.isDigit = false ∧ c ≠ '.') ∨ (c = '.' ∧ (lex_number_loop f l).2.1 = true) := by
  induction l with
  | nil => intro f c h; simp [lex_number_loop] at h
  | cons a as ih =>
    intro f c h
    simp only [lex_number_loop] at h ⊢
    split_ifs at h ⊢ with h1 h2 h3
    · exact ih f c h
    · simp only [List.head?_cons, Option.some.injEq] at h
      subst h
      exact Or.inr ⟨h2, h3⟩
    · exact ih true c h
    · simp only [List.head?_cons, Option.some.injEq] at h
      subst h
      exact Or.inl ⟨Bool.not_eq_true _ ▸ h1, h2⟩

/-! ## String scanner characterization. -/

theorem lex_string_loop_stop (q : Char) (l : List Char) :
    (lex_string_loop q l).2 = [] ∨ (lex_string_loop q l).2.head? = some q := by
  suffices H : ∀ (n : Nat) (l : List Char), l.length ≤ n →
      (lex_string_loop q l).2 = [] ∨ (lex_string_loop q l).2.head? = some q from
    H l.length l le_rfl
  intro n
  induction n with
  | zero =>
    intro l hl
    cases l with
    | nil => simp [lex_string_loop]
    | cons c cs => simp at hl
  | succ n ih =>
    intro l hl
    cases l with
    | nil => simp [lex_string_loop]
    | cons c cs =>
      rw [lex_string_loop.eq_def]
      dsimp only
      split_ifs with h1 h2
      · subst h1
        simp
      · cases cs with
        | nil => simp
        | cons d ds => simpa using ih ds (by simp at hl; omega)
      · simpa using ih cs (by simp at hl; omega)

theorem lex_string_loop_backslash (q d : Char) (ds : List Char) (hq : q ≠ '\\') :
    lex_string_loop q ('\\' :: d :: ds) =
      ('\\' :: d :: (lex_string_loop q ds).1, (lex_string_loop q ds).2) := by
  rw [lex_string_loop.eq_def]
  dsimp only
  rw [if_neg (fun h => hq h.symm), if_pos rfl]

theorem lex_string_loop_other (q c : Char) (cs : List Char) (hc : c ≠ q)
    (hb : c ≠ '\\') :
    lex_string_loop q (c :: cs) =
      (c :: (lex_string_loop q cs).1, (lex_string_loop q cs).2) := by
  rw [lex_string_loop.eq_def]
  dsimp only
  rw [if_neg hc, if_neg hb]

theorem lex_string_token (q : Char) (rest : List Char) (p : LinePos) :
    (lex_string q rest p).1.type = .STRING ∧
      (lex_string q rest p).1.value.head? = some q := by
  simp only [lex_string]
  split
  next c cs heq => split_ifs <;> simp
  next heq => simp

theorem lex_string_closed (q : Char) (rest : List Char) (p : LinePos)
    (h : (lex_string_loop q rest).2.head? = some q) :
    lex_string q rest p =
      (⟨.STRING, q :: (lex_string_loop q rest).1 ++ [q], p.line, p.column⟩,
       q :: (lex_string_loop q rest).1 ++ [q], (lex_string_loop q rest).2.tail) := by
  simp only [lex_string]
  split
  next c cs heq =>
    rw [heq] at h
    simp only [List.head?_cons, Option.some.injEq] at h
    subst h
    rw [if_pos rfl, heq]
    simp
  next heq =>
    rw [heq] at h
    simp at h

theorem lex_string_unterminated (q : Char) (rest : List Char) (p : LinePos)
    (h : (lex_string_loop q rest).2 = []) :
    lex_string q rest p =
      (⟨.STRING, q :: (lex_string_loop q rest).1, p.line, p.column⟩,
       q :: (lex_string_loop q rest).1, []) := by
  simp only [lex_string]
  split
  next c cs heq => rw [heq] at h; simp at h
  next heq => rfl

/-- The dispatcher with the dead branch removed agrees with the dispatcher
everywhere: the later Python-comment check on `#` is unreachable. -/
theorem dispatch_eq_nodead_all (c : Char) (cs : List Char) (p : LinePos) :
    dispatch c cs p = dispatch_nodead c cs p := by
  simp only [dispatch, dispatch_nodead]
  split_ifs <;> rfl

/-! ## Claims. -/

/-- C1, counterexample: the claim as stated is false.  On input consisting of
one newline, the NEWLINE token's value is the two-character string
backslash-n (Python source `"\\n"`), not the one-character newline string. -/
theorem claim_C1_cex :
    tokenize "\n" = [⟨.NEWLINE, ['\\', 'n'], 1, 1⟩] ∧
      ¬ ((tokenize "\n").map Token.value = [['\n']]) :=
  ⟨by decide, by decide⟩

/-- C1 (amended): whenever the dispatcher encounters a newline character, the
newline sub-scanner emits a NEWLINE token whose value is the two-character
escape sequence backslash + n (not the newline character itself), with
line/column recorded at the newline's position, and then advances past
exactly that one character. -/
theorem claim_C1 (cs : List Char) (p : LinePos) :
    dispatch '\n' cs p = (⟨.NEWLINE, ['\\', 'n'], p.line, p.column⟩, ['\n'], cs) :=
  dispatch_newline cs p

/-- C2: at every dispatch position whose current character is `#`, the
emitted token is PREPROCESSOR (capturing up to but not including the next
newline or end of input), never COMMENT; and the dispatcher agrees everywhere
with the variant in which the later Python-comment branch on `#` is removed,
i.e. that branch is unreachable for every input. -/
theorem claim_C2 :
    (∀ (cs : List Char) (p : LinePos),
        dispatch '#' cs p =
          (⟨.PREPROCESSOR, ('#' :: cs).takeWhile (fun c => c != '\n'), p.line, p.column⟩,
           ('#' :: cs).takeWhile (fun c => c != '\n'),
           ('#' :: cs).dropWhile (fun c => c != '\n')) ∧
        (dispatch '#' cs p).1.type = .PREPROCESSOR ∧
        (dispatch '#' cs p).1.type ≠ .COMMENT) ∧
    (∀ (c : Char) (cs : List Char) (p : LinePos),
        dispatch c cs p = dispatch_nodead c cs p) := by
  refine ⟨fun cs p => ⟨dispatch_hash cs p, ?_, ?_⟩, dispatch_eq_nodead_all⟩
  · rw [dispatch_hash]
  · rw [dispatch_hash]
    simp

/-- C3: tokenization terminates (the loop's result is independent of any
sufficient fuel), and every character of the input is accounted for exactly
once: the concatenation of the per-iteration skipped-whitespace and consumed
token spans, followed by the trailing skipped whitespace, reconstitutes the
input, and every token span is non-empty (each iteration over non-empty
remaining input consumes at least one character). -/
theorem claim_C3 (s : String) :
    (((lexFull s.toList).1.map (fun x => x.1 ++ x.2.1)).flatten ++ (lexFull s.toList).2
        = s.toList) ∧
    (∀ x ∈ (lexFull s.toList).1, x.2.1 ≠ []) ∧
    (∀ fuel : Nat, s.toList.length ≤ fuel →
        lexRun fuel s.toList ⟨1, 1⟩ = lexFull s.toList) := by
  refine ⟨lexRun_join s.toList.length s.toList ⟨1, 1⟩ le_rfl,
    lexRun_consumed_ne s.toList.length s.toList ⟨1, 1⟩, ?_⟩
  intro fuel hf
  exact lexRun_fuel fuel s.toList.length s.toList ⟨1, 1⟩ hf le_rfl

/-- C3 witness at the concrete input "a b". -/
theorem claim_C3_witness :
    (((lexFull "a b".toList).1.map (fun x => x.1 ++ x.2.1)).flatten
        ++ (lexFull "a b".toList).2 = "a b".toList) ∧
    (([], ['a'], (⟨.IDENTIFIER, ['a'], 1, 1⟩ : Token)) :
        List Char × List Char × Token).2.1 ≠ [] ∧
    lexRun 5 "a b".toList ⟨1, 1⟩ = lexFull "a b".toList :=
  ⟨(claim_C3 "a b").1,
   (claim_C3 "a b").2.1 ([], ['a'], ⟨.IDENTIFIER, ['a'], 1, 1⟩) (by decide),
   (claim_C3 "a b").2.2 5 (by decide)⟩

/-- C4: tokens are emitted in strictly increasing order of start offset
(pairwise, hence for any two tokens A before B), and adjacent tokens'
(line, column) pairs are strictly increasing lexicographically. -/
theorem claim_C4 (s : String) :
    List.Pairwise (· < ·) ((spanOffsets 0 (lexFull s.toList).1).map Prod.fst) ∧
    List.Chain' posLt ((tokenize s).map (fun t => (⟨t.line, t.column⟩ : LinePos))) := by
  constructor
  · exact spanOffsets_pairwise (lexFull s.toList).1
      (lexRun_consumed_ne s.toList.length s.toList ⟨1, 1⟩) 0
  · have hp := lexRun_pos_pairwise s.toList.length s.toList ⟨1, 1⟩
    have hmap : ((tokenize s).map fun t => (⟨t.line, t.column⟩ : LinePos)).Pairwise posLt := by
      unfold tokenize tokenizeChars
      rw [List.map_map]
      exact List.pairwise_map.mpr hp
    exact hmap.chain'

/-- C5: the dispatcher is total and never fails: any current character
matching none of the category guards is consumed as exactly one
single-character UNKNOWN token; in particular input `$` yields one UNKNOWN
token with value `$`. -/
theorem claim_C5 :
    (∀ (c : Char) (cs : List Char) (p : LinePos),
        c ≠ '\n' → c ≠ '#' →
        ¬(c = '/' ∧ cs.head? = some '/') → ¬(c = '/' ∧ cs.head? = some '*') →
        c.isDigit = false → c.isAlpha = false → c ≠ '_' →
        c ≠ '"' → c ≠ '\'' →
        (∀ d, cs.head? = some d → [c, d] ∉ multi_char_ops) →
        c ∉ single_ops → c ∉ delimiters →
        dispatch c cs p = (⟨.UNKNOWN, [c], p.line, p.column⟩, [c], cs)) ∧
    tokenize "$" = [⟨.UNKNOWN, ['$'], 1, 1⟩] := by
  refine ⟨?_, by decide⟩
  intro c cs p h1 h2 h3 h4 h5 h6 h7 h8 h9 hop hs hdel
  exact dispatch_unknown cs p h1 h2 h3 h4 h5 h6 h7 h8 h9 hop hs hdel

/-- C5 witness at the concrete character `$`. -/
theorem claim_C5_witness :
    dispatch '$' [] ⟨1, 1⟩ = (⟨.UNKNOWN, ['$'], 1, 1⟩, ['$'], []) ∧
      tokenize "$" = [⟨.UNKNOWN, ['$'], 1, 1⟩] :=
  ⟨claim_C5.1 '$' [] ⟨1, 1⟩ (by decide) (by decide) (by simp) (by simp)
      (by decide) (by decide) (by decide) (by decide) (by decide)
      (fun d h => Option.noConfusion h) (by decide) (by decide),
   claim_C5.2⟩

/-- C6: the string sub-scanner is triggered by either quote character and
emits exactly one STRING token whose value starts with the opening quote;
after a backslash the following character is copied without interpretation
(even a quote), an ordinary character different from the opening quote is
copied and does not terminate the string, the copy loop stops only at end of
input or at the exact opening quote; a found closing quote is consumed and
included in the value, and at end of input the token is still emitted with
the partial value and no closing quote. -/
theorem claim_C6 :
    (∀ (c : Char) (cs : List Char) (p : LinePos), (c = '"' ∨ c = '\'') →
        dispatch c cs p = lex_string c cs p) ∧
    (∀ (q : Char) (rest : List Char) (p : LinePos),
        (lex_string q rest p).1.type = .STRING ∧
        (lex_string q rest p).1.value.head? = some q) ∧
    (∀ (q d : Char) (ds : List Char), (q = '"' ∨ q = '\'') →
        lex_string_loop q ('\\' :: d :: ds) =
          ('\\' :: d :: (lex_string_loop q ds).1, (lex_string_loop q ds).2)) ∧
    (∀ (q c : Char) (cs : List Char), c ≠ q → c ≠ '\\' →
        lex_string_loop q (c :: cs) =
          (c :: (lex_string_loop q cs).1, (lex_string_loop q cs).2)) ∧
    (∀ (q : Char) (l : List Char),
        (lex_string_loop q l).2 = [] ∨ (lex_string_loop q l).2.head? = some q) ∧
    (∀ (q : Char) (rest : List Char) (p : LinePos),
        (lex_string_loop q rest).2.head? = some q →
          lex_string q rest p =
            (⟨.STRING, q :: (lex_string_loop q rest).1 ++ [q], p.line, p.column⟩,
             q :: (lex_string_loop q rest).1 ++ [q], (lex_string_loop q rest).2.tail)) ∧
    (∀ (q : Char) (rest : List Char) (p : LinePos),
        (lex_string_loop q rest).2 = [] →
          lex_string q rest p =
            (⟨.STRING, q :: (lex_string_loop q rest).1, p.line, p.column⟩,
             q :: (lex_string_loop q rest).1, [])) :=
  ⟨fun _ cs p h => dispatch_quote cs p h,
   fun q rest p => lex_string_token q rest p,
   fun q d ds hq => lex_string_loop_backslash q d ds
     (by rcases hq with rfl | rfl <;> decide),
   fun q c cs h1 h2 => lex_string_loop_other q c cs h1 h2,
   fun q l => lex_string_loop_stop q l,
   fun q rest p h => lex_string_closed q rest p h,
   fun q rest p h => lex_string_unterminated q rest p h⟩

/-- C6 witness at concrete string inputs (escaped quote, mismatched quote,
closed string, unterminated string). -/
theorem claim_C6_witness :
    dispatch '"' ['a', '"'] ⟨1, 1⟩ = lex_string '"' ['a', '"'] ⟨1, 1⟩ ∧
    lex_string_loop '"' ('\\' :: '"' :: ['x', '"']) =
      ('\\' :: '"' :: (lex_string_loop '"' ['x', '"']).1,
       (lex_string_loop '"' ['x', '"']).2) ∧
    lex_string_loop '"' ('\'' :: ['"']) =
      ('\'' :: (lex_string_loop '"' ['"']).1, (lex_string_loop '"' ['"']).2) ∧
    lex_string '"' ['a', '"', 'b'] ⟨1, 1⟩ =
      (⟨.STRING, '"' :: (lex_string_loop '"' ['a', '"', 'b']).1 ++ ['"'], 1, 1⟩,
       '"' :: (lex_string_loop '"' ['a', '"', 'b']).1 ++ ['"'],
       (lex_string_loop '"' ['a', '"', 'b']).2.tail) ∧
    lex_string '"' ['a', 'b'] ⟨1, 1⟩ =
      (⟨.STRING, '"' :: (lex_string_loop '"' ['a', 'b']).1, 1, 1⟩,
       '"' :: (lex_string_loop '"' ['a', 'b']).1, []) :=
  ⟨claim_C6.1 '"' ['a', '"'] ⟨1, 1⟩ (Or.inl rfl),
   claim_C6.2.2.1 '"' '"' ['x', '"'] (Or.inl rfl),
   claim_C6.2.2.2.1 '"' '\'' ['"'] (by decide) (by decide),
   claim_C6.2.2.2.2.2.1 '"' ['a', '"', 'b'] ⟨1, 1⟩ (by decide),
   claim_C6.2.2.2.2.2.2 '"' ['a', 'b'] ⟨1, 1⟩ (by decide)⟩

/-- C7: the number sub-scanner consumes a run of digits with at most one dot
(all consumed characters are digits or a dot), is classified FLOAT exactly
when a dot was consumed and INTEGER otherwise, a second dot terminates the
run without being consumed, the character after the run is never a digit and
is a dot only when the token is already FLOAT; input `3.1.4` yields FLOAT
"3.1", DELIMITER ".", INTEGER "4". -/
theorem claim_C7 :
    (∀ l : List Char,
        ((lex_number_loop false l).2.1 = true ↔ '.' ∈ (lex_number_loop false l).1)) ∧
    (∀ cs : List Char, lex_number_loop true ('.' :: cs) = ([], true, '.' :: cs)) ∧
    (∀ (rest : List Char) (p : LinePos),
        ((lex_number rest p).1.type = .FLOAT ↔ '.' ∈ (lex_number rest p).1.value) ∧
        ((lex_number rest p).1.type = .FLOAT ∨ (lex_number rest p).1.type = .INTEGER) ∧
        (lex_number rest p).1.value.count '.' ≤ 1 ∧
        (∀ c ∈ (lex_number rest p).1.value, c.isDigit = true ∨ c = '.') ∧
        (∀ c, (lex_number rest p).2.2.head? = some c →
          c.isDigit = false ∧ (c = '.' → (lex_number rest p).1.type = .FLOAT))) ∧
    (∀ (c : Char) (cs : List Char) (p : LinePos), c.isDigit = true →
        dispatch c cs p = lex_number (c :: cs) p) ∧
    tokenize "3.1.4" =
      [⟨.FLOAT, ['3', '.', '1'], 1, 1⟩, ⟨.DELIMITER, ['.'], 1, 4⟩,
       ⟨.INTEGER, ['4'], 1, 5⟩] := by
  refine ⟨?_, ?_, ?_, fun c cs p h => dispatch_digit cs p h, by decide⟩
  · intro l
    rw [lex_number_loop_flag l false]
    simp
  · intro cs
    simp [lex_number_loop]
  · intro rest p
    have hflag := lex_number_loop_flag rest false
    refine ⟨?_, ?_, lex_number_loop_dot_count rest,
      fun c hc => lex_number_loop_chars rest false c hc, ?_⟩
    · cases hb : (lex_number_loop false rest).2.1 with
      | false =>
        rw [hb] at hflag
        simp only [Bool.false_or] at hflag
        have hnot : ¬ ('.' ∈ (lex_number_loop false rest).1) := fun hmem => by
          have h1 := decide_eq_true hmem
          rw [← hflag] at h1
          cases h1
        simp [lex_number, hb, hnot]
      | true =>
        rw [hb] at hflag
        simp only [Bool.false_or] at hflag
        have : '.' ∈ (lex_number_loop false rest).1 := of_decide_eq_true hflag.symm
        simp [lex_number, hb, this]
    · simp only [lex_number]
      split_ifs <;> simp
    · intro c hc
      have := lex_number_loop_max rest false c hc
      rcases this with ⟨hd, hne⟩ | ⟨rfl, hfl⟩
      · exact ⟨hd, fun h => absurd h hne⟩
      · refine ⟨by decide, fun _ => ?_⟩
        simp [lex_number, hfl]

/-- C7 witness at the concrete digit `3`. -/
theorem claim_C7_witness :
    dispatch '3' ['.', '1'] ⟨1, 1⟩ = lex_number ['3', '.', '1'] ⟨1, 1⟩ ∧
    ((lex_number ['3', '.', '1'] ⟨1, 1⟩).1.type = .FLOAT ↔
      '.' ∈ (lex_number ['3', '.', '1'] ⟨1, 1⟩).1.value) :=
  ⟨claim_C7.2.2.2.1 '3' ['.', '1'] ⟨1, 1⟩ (by decide),
   (claim_C7.2.2.1 ['3', '.', '1'] ⟨1, 1⟩).1⟩

/-- C8: a maximal alphanumeric-or-underscore run starting with a letter or
underscore is dispatched to the identifier sub-scanner; the token is KEYWORD
exactly when the run's exact text is a member of the fixed case-sensitive
keyword set and IDENTIFIER otherwise; e.g. `if` is a KEYWORD while `iff` and
`If` are IDENTIFIERs (exact, case-sensitive, never a prefix match). -/
theorem claim_C8 :
    (∀ (c : Char) (cs : List Char) (p : LinePos), (c.isAlpha = true ∨ c = '_') →
        dispatch c cs p = lex_identifier (c :: cs) p) ∧
    (∀ (rest : List Char) (p : LinePos),
        (lex_identifier rest p).1.value = rest.takeWhile is_ident_char ∧
        ((lex_identifier rest p).1.type = .KEYWORD ↔
          rest.takeWhile is_ident_char ∈ KEYWORD_SET) ∧
        ((lex_identifier rest p).1.type = .IDENTIFIER ↔
          rest.takeWhile is_ident_char ∉ KEYWORD_SET)) ∧
    tokenize "if" = [⟨.KEYWORD, ['i', 'f'], 1, 1⟩] ∧
    tokenize "iff" = [⟨.IDENTIFIER, ['i', 'f', 'f'], 1, 1⟩] ∧
    tokenize "If" = [⟨.IDENTIFIER, ['I', 'f'], 1, 1⟩] := by
  refine ⟨fun c cs p h => dispatch_ident cs p h, ?_, by decide, by decide, by decide⟩
  intro rest p
  refine ⟨rfl, ?_, ?_⟩
  · simp only [lex_identifier]
    split_ifs with h <;> simp [h]
  · simp only [lex_identifier]
    split_ifs with h <;> simp [h]

/-- C8 witness at the concrete identifier character `x`. -/
theorem claim_C8_witness :
    dispatch 'x' [] ⟨1, 1⟩ = lex_identifier ['x'] ⟨1, 1⟩ ∧
    tokenize "if" = [⟨.KEYWORD, ['i', 'f'], 1, 1⟩] :=
  ⟨claim_C8.1 'x' [] ⟨1, 1⟩ (Or.inl (by decide)), claim_C8.2.2.1⟩

/-- C9: when none of the earlier category branches applies, the dispatcher
tries the two-character operator table first: an exact member consumes both
characters as one OPERATOR token, otherwise a single-character operator is
consumed alone; input `x<<=1` yields IDENTIFIER x, OPERATOR <<, OPERATOR =,
INTEGER 1. -/
theorem claim_C9 :
    (∀ (c d : Char) (t : List Char) (p : LinePos),
        c ≠ '\n' → c ≠ '#' → ¬(c = '/' ∧ d = '/') → ¬(c = '/' ∧ d = '*') →
        c.isDigit = false → c.isAlpha = false → c ≠ '_' → c ≠ '"' → c ≠ '\'' →
        [c, d] ∈ multi_char_ops →
        dispatch c (d :: t) p = (⟨.OPERATOR, [c, d], p.line, p.column⟩, [c, d], t)) ∧
    (∀ (c : Char) (cs : List Char) (p : LinePos),
        c ≠ '\n' → c ≠ '#' →
        ¬(c = '/' ∧ cs.head? = some '/') → ¬(c = '/' ∧ cs.head? = some '*') →
        c.isDigit = false → c.isAlpha = false → c ≠ '_' → c ≠ '"' → c ≠ '\'' →
        (∀ d, cs.head? = some d → [c, d] ∉ multi_char_ops) →
        c ∈ single_ops →
        dispatch c cs p = (⟨.OPERATOR, [c], p.line, p.column⟩, [c], cs)) ∧
    tokenize "x<<=1" =
      [⟨.IDENTIFIER, ['x'], 1, 1⟩, ⟨.OPERATOR, ['<', '<'], 1, 2⟩,
       ⟨.OPERATOR, ['='], 1, 4⟩, ⟨.INTEGER, ['1'], 1, 5⟩] :=
  ⟨fun _ _ t p h1 h2 h3 h4 h5 h6 h7 h8 h9 hop =>
     dispatch_twochar t p h1 h2 h3 h4 h5 h6 h7 h8 h9 hop,
   fun _ cs p h1 h2 h3 h4 h5 h6 h7 h8 h9 hop hs =>
     dispatch_single_op cs p h1 h2 h3 h4 h5 h6 h7 h8 h9 hop hs,
   by decide⟩

/-- C9 witness at the concrete operators `<<` and `=`. -/
theorem claim_C9_witness :
    dispatch '<' ('<' :: ['x']) ⟨1, 1⟩ =
      (⟨.OPERATOR, ['<', '<'], 1, 1⟩, ['<', '<'], ['x']) ∧
    dispatch '=' ['1'] ⟨1, 1⟩ = (⟨.OPERATOR, ['='], 1, 1⟩, ['='], ['1']) :=
  ⟨claim_C9.1 '<' '<' ['x'] ⟨1, 1⟩ (by decide) (by decide) (by decide) (by decide)
     (by decide) (by decide) (by decide) (by decide) (by decide) (by decide),
   claim_C9.2.1 '=' ['1'] ⟨1, 1⟩ (by decide) (by decide) (by decide) (by decide)
     (by decide) (by decide) (by decide) (by decide) (by decide)
     (by
       intro d h
       simp only [List.head?_cons, Option.some.injEq] at h
       subst h
       decide)
     (by decide)⟩

/-- C10: no OPERATOR token ever has value `//`: although `//` is in the
two-character operator table, the line-comment branch is tested first, so a
`//` at a dispatch point is always consumed by the line-comment sub-scanner
as (part of) a COMMENT token. -/
theorem claim_C10 :
    (∀ (s : String), ∀ t ∈ tokenize s, t.type = .OPERATOR → t.value ≠ ['/', '/']) ∧
    (∀ (cs : List Char) (p : LinePos), cs.head? = some '/' →
        dispatch '/' cs p = lex_single_comment ('/' :: cs) p ∧
        (dispatch '/' cs p).1.type = .COMMENT) := by
  constructor
  · intro s t ht
    have hall := lexRun_token_prop (fun tok => tok.type = .OPERATOR → tok.value ≠ ['/', '/'])
      (fun c cs p => dispatch_no_slashslash_op c cs p) s.toList.length s.toList ⟨1, 1⟩
    unfold tokenize tokenizeChars at ht
    rw [List.mem_map] at ht
    obtain ⟨x, hx, rfl⟩ := ht
    exact hall x hx
  · intro cs p h
    have hd := dispatch_line_comment cs p h
    refine ⟨hd, ?_⟩
    rw [hd]
    simp [lex_single_comment]

/-- C10 witness: a concrete OPERATOR token of a run, and the dispatch of a
concrete `//` occurrence. -/
theorem claim_C10_witness :
    ((⟨.OPERATOR, ['+'], 1, 1⟩ : Token).value ≠ ['/', '/']) ∧
    (dispatch '/' ['/'] ⟨1, 1⟩ = lex_single_comment ['/', '/'] ⟨1, 1⟩ ∧
     (dispatch '/' ['/'] ⟨1, 1⟩).1.type = .COMMENT) :=
  ⟨claim_C10.1 "+" ⟨.OPERATOR, ['+'], 1, 1⟩ (by decide) rfl,
   claim_C10.2 ['/'] ⟨1, 1⟩ (by decide)⟩

/-- C1 witness at the concrete input consisting of one newline. -/
theorem claim_C1_witness :
    dispatch '\n' [] ⟨1, 1⟩ = (⟨.NEWLINE, ['\\', 'n'], 1, 1⟩, ['\n'], []) :=
  claim_C1 [] ⟨1, 1⟩

/-- C2 witness at a concrete `#` dispatch. -/
theorem claim_C2_witness :
    (dispatch '#' ['a'] ⟨1, 1⟩).1.type = .PREPROCESSOR ∧
    (dispatch '#' ['a'] ⟨1, 1⟩).1.type ≠ .COMMENT ∧
    dispatch 'x' [] ⟨1, 1⟩ = dispatch_nodead 'x' [] ⟨1, 1⟩ :=
  ⟨(claim_C2.1 ['a'] ⟨1, 1⟩).2.1, (claim_C2.1 ['a'] ⟨1, 1⟩).2.2,
   claim_C2.2 'x' [] ⟨1, 1⟩⟩

/-- C4 witness at the concrete input "a b". -/
theorem claim_C4_witness :
    List.Pairwise (· < ·) ((spanOffsets 0 (lexFull "a b".toList).1).map Prod.fst) ∧
    List.Chain' posLt (((tokenize "a b").map (fun t => (⟨t.line, t.column⟩ : LinePos)))) :=
  claim_C4 "a b"

end LexerNoAI
